import Mathlib

/-!
# ifcloud-core: verification of the file delete service

A shallow embedding of `src/services/file/delete.service.ts` (class
`FileDeleteService`) over the Prisma data model, together with a model of
the chunk assembler described in the design document (whose implementation
is not part of the delete service).

The relational store is modelled as lists of rows; Prisma operations are
translated one-by-one:
* `findUniqueOrThrow` / `findUnique`  → `List.find?`,
* `findMany` with a filter            → `List.filter` / `List.filterMap`,
* `deleteMany`                        → `List.filter` removing the matches,
* `delete` on a primary key           → presence check (`P2025` raises
  `NotFoundError` when the row is absent) then `List.eraseP`,
* `update` on a primary key           → `List.map` replacing the matching row,
* `$transaction [op, ...]`            → a fold applying the updates as one
  state change (atomic by construction),
* the array filter `hasEvery`         → `hasEvery` below.

NestJS exception classes map to the spec's error taxonomy:
`NotFoundException → notFound`, `ConflictException → conflict`,
`BadRequestException → validation`, `InternalServerErrorException → fatal`,
storage failures → `ioFail`.

Because some claims are about what happens when a row deletion fails
mid-operation, the row-deleting statements of `deleteFile` take a `Fault`
parameter selecting which statement (if any) raises an error.
-/

namespace Ifcloud

/-- Prisma enum `file_type`. -/
inductive FileType
  | container
  | block
  | link
deriving DecidableEq

/-- A row of the `file` table: id (PK), unique `file_key`, kind, display
name, owning member. -/
structure FileRow where
  id : Nat
  file_key : String
  type : FileType
  file_name : String
  owner_id : Nat
deriving DecidableEq

/-- A row of the `file_path` table (materialized-path variant used by
`FileDeleteService`): `file_id` (PK, one row per file) and `path`, the list
of ancestor ids from the root downward, excluding the file itself. -/
structure FilePathRow where
  file_id : Nat
  path : List Nat
deriving DecidableEq

/-- A row of the `temp_file` table (an in-flight upload): id (PK), owner,
content key, parent file id (FK to `file`, cascade on delete). -/
structure TempFileRow where
  id : Nat
  owner_id : Nat
  file_key : String
  parent_id : Nat
deriving DecidableEq

/-- The persistent state: the relational store plus the blob store.
`blobs` is the set of keys present in the blob gateway; `scratch` is the
set of scratch chunk artifacts `(uploadKey, chunkIndex)` on disk. -/
structure DB where
  files : List FileRow
  file_paths : List FilePathRow
  temp_files : List TempFileRow
  blobs : List String
  scratch : List (String × Nat)
deriving DecidableEq

/-- The spec's error taxonomy (§7). -/
inductive Err
  | notFound
  | conflict
  | validation
  | ioFail
  | fatal
deriving DecidableEq

/-- Fault-injection selector for the two row-deleting statements of
`deleteFile`: `ok` (no fault), the `deleteMany` of the descendants fails,
or the final `delete` of the node itself fails. -/
inductive Fault
  | ok
  | failDeleteMany
  | failFinalDelete
deriving DecidableEq

/-- Result of `deleteFile`: the resulting store, the list of keys passed to
`storageService.deleteFile` (the blob-gateway delete), in call order, and
the raised error if any. -/
structure Outcome where
  db : DB
  blobCalls : List String
  error : Option Err
deriving DecidableEq

/-- Result of an operation that only touches the relational store. -/
structure MoveOutcome where
  db : DB
  error : Option Err
deriving DecidableEq

/-- Prisma array filter `hasEvery`: the row's array contains every element
of the required list. -/
def hasEvery (req : List Nat) (arr : List Nat) : Bool :=
  req.all (fun x => arr.contains x)

/-- `prisma.file.findUnique({where: {file_key}})`. -/
def findFile (db : DB) (key : String) : Option FileRow :=
  db.files.find? (fun f => f.file_key == key)

/-- The `file_path` row of a file (the included to-one relation). -/
def findPath (db : DB) (fid : Nat) : Option FilePathRow :=
  db.file_paths.find? (fun p => p.file_id == fid)

/-- Modelled from the spec: `SpecialContainerNameSchema` (file.schema.ts is
not under src/). The well-known special container names; the spec and the
`moveToTrash` code name `trash`. -/
def specialNames : List String := ["trash"]

/-- The name used to look the trash container up
(`SpecialContainerNameSchema.enum.trash`). -/
def trashName : String := "trash"

/-- The `file_path.findMany({where: {path: {hasEvery: fp.path ++ [f.id]}}})`
query of `deleteFile` with its selected `file` relation: the rows whose
path contains the file's whole path plus the file's own id, i.e. the
descendants of the file (the source calls the variable `ancestors`). -/
def descendantFiles (db : DB) (f : FileRow) (fp : FilePathRow) : List FileRow :=
  (db.file_paths.filter (fun p => hasEvery (fp.path ++ [f.id]) p.path)).filterMap
    (fun p => db.files.find? (fun g => g.id == p.file_id))

/-- Remove a set of keys from the blob store (`storageService.deleteFile`
is fire-and-forget; deleting an absent key is not an error). -/
def removeBlobs (blobs : List String) (keys : List String) : List String :=
  blobs.filter (fun b => !(keys.contains b))

/-- The blob-gateway calls of `deleteFile`: the file's own key first when
it is a block, then the key of every block-kind descendant. -/
def blobCallsFor (db : DB) (f : FileRow) (fp : FilePathRow) : List String :=
  (if f.type = FileType.block then [f.file_key] else []) ++
    ((descendantFiles db f fp).filter (fun g => g.type == FileType.block)).map
      (fun g => g.file_key)

/-- The ids handed to the `deleteMany` of `deleteFile`. -/
def descIdsFor (db : DB) (f : FileRow) (fp : FilePathRow) : List Nat :=
  (descendantFiles db f fp).map (fun g => g.id)

/-- The store after the (best-effort) blob deletions of `deleteFile`. -/
def dbAfterBlobDeletes (db : DB) (f : FileRow) (fp : FilePathRow) : DB :=
  { db with blobs := removeBlobs db.blobs (blobCallsFor db f fp) }

/-- The store after the `deleteMany` of the descendants (cascade removes
their `file_path` and `temp_file` children). -/
def dbAfterDeleteMany (db : DB) (f : FileRow) (fp : FilePathRow) : DB :=
  { dbAfterBlobDeletes db f fp with
    files := db.files.filter (fun g => !((descIdsFor db f fp).contains g.id)),
    file_paths := db.file_paths.filter (fun p => !((descIdsFor db f fp).contains p.file_id)),
    temp_files := db.temp_files.filter (fun t => !((descIdsFor db f fp).contains t.parent_id)) }

/-- The store after the final `delete` of the file's own row. -/
def dbAfterFinalDelete (db : DB) (f : FileRow) (fp : FilePathRow) : DB :=
  { dbAfterDeleteMany db f fp with
    files := (dbAfterDeleteMany db f fp).files.eraseP (fun g => g.id == f.id),
    file_paths := (dbAfterDeleteMany db f fp).file_paths.filter (fun p => !(p.file_id == f.id)),
    temp_files := (dbAfterDeleteMany db f fp).temp_files.filter (fun t => !(t.parent_id == f.id)) }

/-- `FileDeleteService.deleteFile(fileKey)`:
1. `findUniqueOrThrow` the file with its `file_path` (absent → not found);
2. raise `fatal` if the file has no `file_path` row;
3. raise `validation` if the name is special and the path length is ≤ 1;
4. if the file is a block, delete its blob (not awaited, best-effort);
5. query the descendants (`hasEvery` the path plus own id) and delete the
   blob of each block-kind descendant (not awaited, best-effort);
6. `deleteMany` the descendant rows (cascade removes their `file_path` and
   `temp_file` children);
7. `delete` the file's own row (cascade likewise; P2025 → not found).
Steps 6 and 7 are two separate statements, not one transaction; `fault`
selects which of them, if any, raises an error. -/
def deleteFile (fault : Fault) (db : DB) (fileKey : String) : Outcome :=
  match findFile db fileKey with
  | none => ⟨db, [], some Err.notFound⟩
  | some f =>
    match findPath db f.id with
    | none => ⟨db, [], some Err.fatal⟩
    | some fp =>
      if specialNames.contains f.file_name ∧ fp.path.length ≤ 1 then
        ⟨db, [], some Err.validation⟩
      else
        let calls := blobCallsFor db f fp
        if fault = Fault.failDeleteMany then
          ⟨dbAfterBlobDeletes db f fp, calls, some Err.ioFail⟩
        else if fault = Fault.failFinalDelete then
          ⟨dbAfterDeleteMany db f fp, calls, some Err.ioFail⟩
        else if (dbAfterDeleteMany db f fp).files.any (fun g => g.id == f.id) then
          ⟨dbAfterFinalDelete db f fp, calls, none⟩
        else
          ⟨dbAfterDeleteMany db f fp, calls, some Err.notFound⟩

/-- `FileDeleteService.deleteTemporaryFile(fileId)`: a bare
`prisma.temp_file.delete({where: {id}})` — raises P2025 (not found) when
the row is absent, touches neither blobs nor scratch artifacts. -/
def deleteTemporaryFile (db : DB) (fileId : Nat) : MoveOutcome :=
  if db.temp_files.any (fun t => t.id == fileId) then
    ⟨{ db with temp_files := db.temp_files.eraseP (fun t => t.id == fileId) }, none⟩
  else
    ⟨db, some Err.notFound⟩

/-- The trash lookup of `moveToTrash`: files of the owner named `trash`
whose `file_path.path` equals `[rootFileId]`, with their path rows
(`select: {id, file_path}`). -/
def trashQuery (db : DB) (memberId : Nat) (rootFileId : Nat) : List (Nat × FilePathRow) :=
  db.files.filterMap (fun f =>
    if f.owner_id = memberId ∧ f.file_name = trashName then
      match findPath db f.id with
      | some p => if p.path = [rootFileId] then some (f.id, p) else none
      | none => none
    else none)

/-- One `file_path.update({where: {file_id}, data: {path}})`. -/
def applyPathUpdate (fps : List FilePathRow) (fid : Nat) (newPath : List Nat) :
    List FilePathRow :=
  fps.map (fun p => if p.file_id = fid then { p with path := newPath } else p)

/-- `FileDeleteService.moveToTrash(memberId, rootFileId, targetFileKey)`:
1. find the owner's trash containers at `[rootFileId]`; zero → not found,
   more than one → fatal;
2. `trashPath := trash.path ++ [trash.id]`;
3. `findUniqueOrThrow` the target with its path (absent → not found, no
   path row → fatal);
4. raise `validation` if the target is a special root-level container;
5. `targetPath := target.path ++ [target.id]`; query the strict
   descendants (`hasEvery targetPath`), append the target's own path row;
6. in one `$transaction`, set each collected row's path to
   `trashPath ++ (old path).drop (targetPath.length - 1)`. -/
def moveToTrash (db : DB) (memberId : Nat) (rootFileId : Nat)
    (targetFileKey : String) : MoveOutcome :=
  match trashQuery db memberId rootFileId with
  | [] => ⟨db, some Err.notFound⟩
  | t0 :: rest =>
    if 0 < rest.length then
      ⟨db, some Err.fatal⟩
    else
      let trashPath := t0.2.path ++ [t0.1]
      match findFile db targetFileKey with
      | none => ⟨db, some Err.notFound⟩
      | some target =>
        match findPath db target.id with
        | none => ⟨db, some Err.fatal⟩
        | some tp =>
          if specialNames.contains target.file_name ∧ tp.path.length ≤ 1 then
            ⟨db, some Err.validation⟩
          else
            let targetPath := tp.path ++ [target.id]
            let targetAncestors := db.file_paths.filter (fun p => hasEvery targetPath p.path)
            let targets := targetAncestors ++ [tp]
            let newFps := targets.foldl
              (fun fps t =>
                applyPathUpdate fps t.file_id
                  (trashPath ++ t.path.drop (targetPath.length - 1)))
              db.file_paths
            ⟨{ db with file_paths := newFps }, none⟩

/-- A sample store used by concrete witnesses: a root container (id 1), the
owner's trash (id 2, at path `[1]`), a nested second "trash" (id 3, at path
`[1, 2]`), a `docs` container (id 5) holding one block `c.txt` (id 6, key
`"c"`), one in-flight upload row under `docs`, the block's blob, and one
scratch chunk artifact. -/
def sampleDB : DB :=
  { files := [⟨1, "r", FileType.container, "root", 1⟩,
              ⟨2, "t", FileType.container, "trash", 1⟩,
              ⟨3, "t2", FileType.container, "trash", 1⟩,
              ⟨5, "d", FileType.container, "docs", 1⟩,
              ⟨6, "c", FileType.block, "c.txt", 1⟩],
    file_paths := [⟨1, []⟩, ⟨2, [1]⟩, ⟨3, [1, 2]⟩, ⟨5, [1]⟩, ⟨6, [1, 5]⟩],
    temp_files := [⟨7, 1, "tmp", 5⟩],
    blobs := ["c"],
    scratch := [("tmp", 0)] }

/-! ## Helper lemmas -/

/-- Erasing the row with a given key is plain filtering when the keys of
the list are distinct (a primary-key `delete` removes exactly the matching
row). -/
lemma eraseP_eq_filter_of_nodup_keys {α β : Type} [DecidableEq β] (key : α → β) (k : β)
    (l : List α) (h : (l.map key).Nodup) :
    l.eraseP (fun a => key a == k) = l.filter (fun a => !(key a == k)) := by
  induction l with
  | nil => rfl
  | cons a t ih =>
    simp only [List.map_cons, List.nodup_cons] at h
    by_cases hak : key a = k
    · rw [List.eraseP_cons_of_pos (by simp [hak]), List.filter_cons_of_neg (by simp [hak])]
      symm
      apply List.filter_eq_self.mpr
      intro x hx
      simp only [Bool.not_eq_true', beq_eq_false_iff_ne]
      intro hxk
      exact h.1 (by rw [hak, ← hxk]; exact List.mem_map_of_mem key hx)
    · rw [List.eraseP_cons_of_neg (by simp [hak]), List.filter_cons_of_pos (by simp [hak])]
      rw [ih h.2]

/-- `deleteFile` reduced past the lookups and the special-container
check. -/
lemma deleteFile_pastChecks (fault : Fault) (db : DB) (key : String)
    (f : FileRow) (fp : FilePathRow)
    (hf : findFile db key = some f) (hp : findPath db f.id = some fp)
    (hns : ¬(specialNames.contains f.file_name ∧ fp.path.length ≤ 1)) :
    deleteFile fault db key =
      if fault = Fault.failDeleteMany then
        ⟨dbAfterBlobDeletes db f fp, blobCallsFor db f fp, some Err.ioFail⟩
      else if fault = Fault.failFinalDelete then
        ⟨dbAfterDeleteMany db f fp, blobCallsFor db f fp, some Err.ioFail⟩
      else if (dbAfterDeleteMany db f fp).files.any (fun g => g.id == f.id) then
        ⟨dbAfterFinalDelete db f fp, blobCallsFor db f fp, none⟩
      else
        ⟨dbAfterDeleteMany db f fp, blobCallsFor db f fp, some Err.notFound⟩ := by
  simp only [deleteFile, hf, hp]
  rw [if_neg hns]

/-- Unfolding `List.contains` to plain membership. -/
lemma contains_eq_false_iff {α : Type} [BEq α] [LawfulBEq α] {l : List α} {a : α} :
    l.contains a = false ↔ a ∉ l := by
  simp

/-- Every row produced by the descendant query is a row of the store. -/
lemma mem_files_of_mem_descendantFiles (db : DB) (f : FileRow) (fp : FilePathRow)
    (g : FileRow) (hg : g ∈ descendantFiles db f fp) : g ∈ db.files := by
  simp only [descendantFiles, List.mem_filterMap] at hg
  obtain ⟨p, -, hfind⟩ := hg
  exact List.mem_of_find?_eq_some hfind

/-! ## C10: a file row without a `file_path` row -/

/-- C10: `deleteFile` on a file row that exists but has no `file_path` row
fails with the internal invariant-violation error `fatal` (distinct from
`notFound`), with no blob-gateway call and the store unchanged. -/
theorem deleteFile_missing_path_fatal (fault : Fault) (db : DB) (key : String)
    (f : FileRow) (hf : findFile db key = some f)
    (hp : findPath db f.id = none) :
    deleteFile fault db key = ⟨db, [], some Err.fatal⟩ ∧ Err.fatal ≠ Err.notFound := by
  refine ⟨?_, by decide⟩
  simp only [deleteFile, hf, hp]

/-- Witness for C10: a store holding one file row and no path rows. -/
theorem deleteFile_missing_path_fatal_witness :
    deleteFile Fault.ok ⟨[⟨1, "a", FileType.container, "A", 1⟩], [], [], [], []⟩ "a"
        = ⟨⟨[⟨1, "a", FileType.container, "A", 1⟩], [], [], [], []⟩, [], some Err.fatal⟩ ∧
      Err.fatal ≠ Err.notFound :=
  deleteFile_missing_path_fatal Fault.ok
    ⟨[⟨1, "a", FileType.container, "A", 1⟩], [], [], [], []⟩ "a"
    ⟨1, "a", FileType.container, "A", 1⟩ (by decide) (by decide)

/-! ## C5: special root-level containers reject deletion -/

/-- C5: `deleteFile` on a node with a well-known (special) name fails with
`validation` — deleting no rows, no blobs, and making no blob-gateway
call — exactly when the node is at root level (path length ≤ 1); a node
with a well-known name deeper in the tree is not rejected with
`validation`. -/
theorem deleteFile_special_root_protected (fault : Fault) (db : DB) (key : String)
    (f : FileRow) (fp : FilePathRow)
    (hf : findFile db key = some f) (hp : findPath db f.id = some fp)
    (hs : specialNames.contains f.file_name = true) :
    (fp.path.length ≤ 1 → deleteFile fault db key = ⟨db, [], some Err.validation⟩) ∧
    (1 < fp.path.length → (deleteFile fault db key).error ≠ some Err.validation) := by
  constructor
  · intro hle
    simp only [deleteFile, hf, hp]
    rw [if_pos ⟨by simpa using hs, hle⟩]
  · intro hgt
    simp only [deleteFile, hf, hp]
    rw [if_neg (by rintro ⟨-, hle⟩; omega)]
    split
    · simp
    · split
      · simp
      · split <;> simp

/-- Witness for C5, at the owner's root-level trash container of
`sampleDB`. -/
theorem deleteFile_special_root_protected_witness :
    deleteFile Fault.ok sampleDB "t" = ⟨sampleDB, [], some Err.validation⟩ :=
  (deleteFile_special_root_protected Fault.ok sampleDB "t"
    ⟨2, "t", FileType.container, "trash", 1⟩ ⟨2, [1]⟩
    (by decide) (by decide) (by decide)).1 (by decide)

/-! ## C2: trash-container resolution errors of `moveToTrash` -/

/-- A store in which the owner has two root-level containers named
"trash". -/
def dbTwoTrash : DB :=
  { files := [⟨1, "r", FileType.container, "root", 1⟩,
              ⟨2, "t", FileType.container, "trash", 1⟩,
              ⟨3, "t2", FileType.container, "trash", 1⟩,
              ⟨4, "x", FileType.block, "x.txt", 1⟩],
    file_paths := [⟨1, []⟩, ⟨2, [1]⟩, ⟨3, [1]⟩, ⟨4, [1]⟩],
    temp_files := [],
    blobs := ["x"],
    scratch := [] }

/-- C2 counterexample: for an owner (member 2) with zero trash containers,
`moveToTrash` fails with `notFound`, not with the claimed `fatal`. -/
theorem moveToTrash_zero_trash_counterexample :
    (trashQuery sampleDB 2 1).length = 0 ∧
      moveToTrash sampleDB 2 1 "c" = ⟨sampleDB, some Err.notFound⟩ ∧
      Err.notFound ≠ Err.fatal := by decide

/-- C2 amended: when the trash query returns zero rows `moveToTrash` fails
with `notFound`; only when it returns more than one row does it fail with
`fatal`; in both cases the store (hence every path) is unchanged. -/
theorem moveToTrash_trash_count_errors (db : DB) (memberId rootFileId : Nat)
    (key : String) :
    (trashQuery db memberId rootFileId = [] →
        moveToTrash db memberId rootFileId key = ⟨db, some Err.notFound⟩) ∧
      (∀ t0 rest, trashQuery db memberId rootFileId = t0 :: rest → rest ≠ [] →
        moveToTrash db memberId rootFileId key = ⟨db, some Err.fatal⟩) := by
  constructor
  · intro hq
    simp only [moveToTrash, hq]
  · intro t0 rest hq hne
    simp only [moveToTrash, hq]
    rw [if_pos (List.length_pos.mpr hne)]

/-- Witness for the amended C2, on the store with two trash containers. -/
theorem moveToTrash_trash_count_errors_witness :
    moveToTrash dbTwoTrash 1 1 "x" = ⟨dbTwoTrash, some Err.fatal⟩ :=
  (moveToTrash_trash_count_errors dbTwoTrash 1 1 "x").2 (2, ⟨2, [1]⟩)
    [(3, ⟨3, [1]⟩)] (by decide) (by decide)

/-! ## C6: special containers cannot be moved to trash -/

/-- C6: when the owner's trash container resolves uniquely but the move
target is itself a special root-level container, `moveToTrash` fails with
`validation` and the store — hence every node's path — is unchanged. -/
theorem moveToTrash_special_target_validation (db : DB) (memberId rootFileId : Nat)
    (key : String) (t0 : Nat × FilePathRow) (target : FileRow) (tp : FilePathRow)
    (hq : trashQuery db memberId rootFileId = [t0])
    (hf : findFile db key = some target)
    (hp : findPath db target.id = some tp)
    (hs : specialNames.contains target.file_name = true)
    (hroot : tp.path.length ≤ 1) :
    moveToTrash db memberId rootFileId key = ⟨db, some Err.validation⟩ := by
  simp only [moveToTrash, hq, hf, hp]
  rw [if_neg (by simp), if_pos ⟨by simpa using hs, hroot⟩]

/-- Witness for C6: moving the trash container itself to trash. -/
theorem moveToTrash_special_target_validation_witness :
    moveToTrash sampleDB 1 1 "t" = ⟨sampleDB, some Err.validation⟩ :=
  moveToTrash_special_target_validation sampleDB 1 1 "t" (2, ⟨2, [1]⟩)
    ⟨2, "t", FileType.container, "trash", 1⟩ ⟨2, [1]⟩
    (by decide) (by decide) (by decide) (by decide) (by decide)

/-! ## C1: the row deletions are two statements, not one transaction -/

/-- C1 counterexample: deleting `docs` (id 5, whose subtree is the block
`c.txt`, id 6) with the final `delete` statement failing raises an error
during the row deletions, yet the descendant row (id 6) is removed while
the node's own row (id 5) is not — neither "all rows" nor "none". -/
theorem deleteFile_partial_deletion_counterexample :
    (deleteFile Fault.failFinalDelete sampleDB "d").error = some Err.ioFail ∧
      (∃ g ∈ sampleDB.files,
        g.id = 6 ∧ g ∉ (deleteFile Fault.failFinalDelete sampleDB "d").db.files) ∧
      (∃ g ∈ (deleteFile Fault.failFinalDelete sampleDB "d").db.files, g.id = 5) := by
  decide

/-- C1 amended: the descendant rows are removed by one `deleteMany` and the
node's own row by a separate `delete`; an error raised by the `deleteMany`
removes no row, but an error raised by the final `delete` leaves every
descendant row deleted while the node's own row persists. -/
theorem deleteFile_row_deletion_fault_behavior (db : DB) (key : String)
    (f : FileRow) (fp : FilePathRow)
    (hf : findFile db key = some f) (hp : findPath db f.id = some fp)
    (hns : ¬(specialNames.contains f.file_name ∧ fp.path.length ≤ 1))
    (hacyc : f.id ∉ descIdsFor db f fp) :
    ((deleteFile Fault.failDeleteMany db key).error = some Err.ioFail ∧
      (deleteFile Fault.failDeleteMany db key).db.files = db.files) ∧
      ((deleteFile Fault.failFinalDelete db key).error = some Err.ioFail ∧
        f ∈ (deleteFile Fault.failFinalDelete db key).db.files ∧
        ∀ g ∈ descendantFiles db f fp,
          g ∉ (deleteFile Fault.failFinalDelete db key).db.files) := by
  rw [deleteFile_pastChecks Fault.failDeleteMany db key f fp hf hp hns,
    deleteFile_pastChecks Fault.failFinalDelete db key f fp hf hp hns]
  refine ⟨⟨rfl, rfl⟩, ?_⟩
  simp only [if_neg (by decide : ¬(Fault.failFinalDelete = Fault.failDeleteMany)), if_pos rfl]
  refine ⟨rfl, ?_, ?_⟩
  · show f ∈ (dbAfterDeleteMany db f fp).files
    simp only [dbAfterDeleteMany]
    refine List.mem_filter.mpr ⟨List.mem_of_find?_eq_some hf, ?_⟩
    simp only [Bool.not_eq_true']
    exact contains_eq_false_iff.mpr hacyc
  · intro g hg hmem
    simp only [dbAfterDeleteMany] at hmem
    have h2 := (List.mem_filter.mp hmem).2
    simp only [Bool.not_eq_true'] at h2
    exact contains_eq_false_iff.mp h2 (List.mem_map_of_mem (fun g => g.id) hg)

/-- Witness for the amended C1, deleting `docs` in `sampleDB` with the
final `delete` failing. -/
theorem deleteFile_row_deletion_fault_behavior_witness :
    (deleteFile Fault.failFinalDelete sampleDB "d").error = some Err.ioFail ∧
      (⟨5, "d", FileType.container, "docs", 1⟩ : FileRow)
        ∈ (deleteFile Fault.failFinalDelete sampleDB "d").db.files :=
  have h := deleteFile_row_deletion_fault_behavior sampleDB "d"
    ⟨5, "d", FileType.container, "docs", 1⟩ ⟨5, [1]⟩
    (by decide) (by decide) (by decide) (by decide)
  ⟨h.2.1, h.2.2.1⟩

/-! ## C8: `deleteTemporaryFile` is not idempotent and keeps scratch -/

/-- C8 counterexample: the first call deletes the in-flight upload row but
leaves the upload's scratch chunk artifact in place, and a second call for
the same id fails with `notFound` instead of succeeding. -/
theorem deleteTemporaryFile_not_idempotent_counterexample :
    (deleteTemporaryFile sampleDB 7).error = none ∧
      (deleteTemporaryFile sampleDB 7).db.scratch = [("tmp", 0)] ∧
      (deleteTemporaryFile (deleteTemporaryFile sampleDB 7).db 7).error
        = some Err.notFound := by
  decide

/-- C8 amended: `deleteTemporaryFile` removes exactly the in-flight upload
row, touching neither the other tables, the blobs, nor the scratch chunk
artifacts; a second call for the same id fails with `notFound` (and leaves
the store unchanged) rather than succeeding. -/
theorem deleteTemporaryFile_delete_then_notFound (db : DB) (fid : Nat)
    (hnodup : (db.temp_files.map (fun t => t.id)).Nodup)
    (t : TempFileRow) (ht : t ∈ db.temp_files) (hid : t.id = fid) :
    ∃ db1,
      deleteTemporaryFile db fid = ⟨db1, none⟩ ∧
        db1.temp_files = db.temp_files.eraseP (fun t => t.id == fid) ∧
        db1.files = db.files ∧ db1.file_paths = db.file_paths ∧
        db1.blobs = db.blobs ∧ db1.scratch = db.scratch ∧
        deleteTemporaryFile db1 fid = ⟨db1, some Err.notFound⟩ := by
  have hany : db.temp_files.any (fun t => t.id == fid) = true :=
    List.any_eq_true.mpr ⟨t, ht, by simp [hid]⟩
  refine ⟨{ db with temp_files := db.temp_files.eraseP (fun t => t.id == fid) },
    by rw [deleteTemporaryFile, if_pos hany], rfl, rfl, rfl, rfl, rfl, ?_⟩
  have herase := eraseP_eq_filter_of_nodup_keys (fun t : TempFileRow => t.id) fid
    db.temp_files hnodup
  rw [deleteTemporaryFile, if_neg]
  simp only [herase, List.any_eq_true, List.mem_filter, Bool.not_eq_true']
  rintro ⟨u, ⟨-, hu⟩, hu2⟩
  rw [hu2] at hu
  cases hu

/-- Witness for the amended C8, on the single in-flight upload of
`sampleDB`. -/
theorem deleteTemporaryFile_delete_then_notFound_witness :
    ∃ db1,
      deleteTemporaryFile sampleDB 7 = ⟨db1, none⟩ ∧
        db1.temp_files = sampleDB.temp_files.eraseP (fun t => t.id == 7) ∧
        db1.files = sampleDB.files ∧ db1.file_paths = sampleDB.file_paths ∧
        db1.blobs = sampleDB.blobs ∧ db1.scratch = sampleDB.scratch ∧
        deleteTemporaryFile db1 7 = ⟨db1, some Err.notFound⟩ :=
  deleteTemporaryFile_delete_then_notFound sampleDB 7 (by decide)
    ⟨7, 1, "tmp", 5⟩ (by decide) (by decide)

/-! ## C7: rows referencing deleted blobs -/

/-- C7 counterexample: deleting the block `c.txt` with the final `delete`
statement failing. The blob is deleted first (before any row), so the
persisted block row ends up referencing a blob absent from the gateway,
although the invariant held in the initial state. -/
theorem deleteFile_dangling_row_counterexample :
    (∀ g ∈ sampleDB.files, g.type = FileType.block → g.file_key ∈ sampleDB.blobs) ∧
      (deleteFile Fault.failFinalDelete sampleDB "c").error = some Err.ioFail ∧
      (∃ g ∈ (deleteFile Fault.failFinalDelete sampleDB "c").db.files,
        g.type = FileType.block ∧
          g.file_key ∉ (deleteFile Fault.failFinalDelete sampleDB "c").db.blobs) := by
  decide

/-- C7 amended: on a fault-free run, `deleteFile` preserves the invariant
that every persisted block row's blob is present in the gateway (the blobs
it removes belong exactly to the rows it removes); the invariant is only
endangered when a row deletion fails after the blob deletions. -/
theorem deleteFile_ok_preserves_blob_invariant (db : DB) (key : String)
    (f : FileRow) (fp : FilePathRow)
    (hf : findFile db key = some f) (hp : findPath db f.id = some fp)
    (hns : ¬(specialNames.contains f.file_name ∧ fp.path.length ≤ 1))
    (hids : (db.files.map (fun g => g.id)).Nodup)
    (hkeys : (db.files.map (fun g => g.file_key)).Nodup)
    (hinv : ∀ g ∈ db.files, g.type = FileType.block → g.file_key ∈ db.blobs) :
    ∀ g ∈ (deleteFile Fault.ok db key).db.files, g.type = FileType.block →
      g.file_key ∈ (deleteFile Fault.ok db key).db.blobs := by
  have hinj := List.inj_on_of_nodup_map hkeys
  have hmain : ∀ g ∈ db.files, g.id ∉ descIdsFor db f fp → g.id ≠ f.id →
      g.type = FileType.block → g.file_key ∈ removeBlobs db.blobs (blobCallsFor db f fp) := by
    intro g hg hgd hgf hgb
    refine List.mem_filter.mpr ⟨hinv g hg hgb, ?_⟩
    simp only [Bool.not_eq_true']
    refine contains_eq_false_iff.mpr ?_
    intro hkey
    simp only [blobCallsFor, List.mem_append] at hkey
    rcases hkey with hkey | hkey
    · by_cases hb : f.type = FileType.block
      · rw [if_pos hb] at hkey
        simp only [List.mem_singleton] at hkey
        exact hgf (by rw [hinj hg (List.mem_of_find?_eq_some hf) hkey])
      · rw [if_neg hb] at hkey
        cases hkey
    · simp only [List.mem_map, List.mem_filter] at hkey
      obtain ⟨s, ⟨hs, hsb⟩, hkeyeq⟩ := hkey
      have hgs : g = s := hinj hg (mem_files_of_mem_descendantFiles db f fp s hs) hkeyeq.symm
      exact hgd (by rw [hgs]; exact List.mem_map_of_mem _ hs)
  rw [deleteFile_pastChecks Fault.ok db key f fp hf hp hns]
  rw [if_neg (by decide : ¬(Fault.ok = Fault.failDeleteMany)),
    if_neg (by decide : ¬(Fault.ok = Fault.failFinalDelete))]
  by_cases hany : (dbAfterDeleteMany db f fp).files.any (fun g => g.id == f.id) = true
  · rw [if_pos hany]
    intro g hg hgb
    have hidsf : ((dbAfterDeleteMany db f fp).files.map (fun g => g.id)).Nodup :=
      List.Nodup.sublist (List.Sublist.map _ (List.filter_sublist _)) hids
    simp only [dbAfterFinalDelete] at hg
    rw [eraseP_eq_filter_of_nodup_keys (fun g : FileRow => g.id) f.id _ hidsf] at hg
    have h1 := List.mem_filter.mp hg
    have h2 := List.mem_filter.mp h1.1
    show g.file_key ∈ removeBlobs db.blobs (blobCallsFor db f fp)
    refine hmain g h2.1 (contains_eq_false_iff.mp (by simpa using h2.2)) ?_ hgb
    simpa using h1.2
  · rw [if_neg hany]
    intro g hg hgb
    have h2 := List.mem_filter.mp hg
    have hgf : g.id ≠ f.id := by
      intro heq
      exact hany (List.any_eq_true.mpr ⟨g, hg, by simp [heq]⟩)
    show g.file_key ∈ removeBlobs db.blobs (blobCallsFor db f fp)
    exact hmain g h2.1 (contains_eq_false_iff.mp (by simpa using h2.2)) hgf hgb

/-- Witness for the amended C7: after fault-free deletion of the nested
`trash` (id 3), the surviving block `c.txt` still has its blob. -/
theorem deleteFile_ok_preserves_blob_invariant_witness :
    (⟨6, "c", FileType.block, "c.txt", 1⟩ : FileRow).file_key
      ∈ (deleteFile Fault.ok sampleDB "t2").db.blobs :=
  deleteFile_ok_preserves_blob_invariant sampleDB "t2"
    ⟨3, "t2", FileType.container, "trash", 1⟩ ⟨3, [1, 2]⟩
    (by decide) (by decide) (by decide) (by decide) (by decide) (by decide)
    ⟨6, "c", FileType.block, "c.txt", 1⟩ (by decide) (by decide)

/-! ## C3: row and blob-call counts of a successful `deleteFile` -/

/-- The ids of the resolved rows of a `filterMap` lookup form a sublist of
the looked-up ids. -/
lemma filterMap_find_ids_sublist (db : DB) (l : List FilePathRow) :
    ((l.filterMap (fun p => db.files.find? (fun g => g.id == p.file_id))).map
      (fun g => g.id)).Sublist (l.map (fun p => p.file_id)) := by
  induction l with
  | nil => simp
  | cons p t ih =>
    cases hfind : db.files.find? (fun g => g.id == p.file_id) with
    | none =>
      simp only [List.filterMap_cons, hfind, List.map_cons]
      exact ih.cons _
    | some g =>
      simp only [List.filterMap_cons, hfind, List.map_cons]
      have hid : g.id = p.file_id := by simpa using List.find?_some hfind
      rw [hid]
      exact ih.cons₂ _

/-- With distinct `file_id`s in the path table, the descendant ids are
distinct. -/
lemma descIds_nodup (db : DB) (f : FileRow) (fp : FilePathRow)
    (hpids : (db.file_paths.map (fun p => p.file_id)).Nodup) :
    (descIdsFor db f fp).Nodup :=
  List.Nodup.sublist
    ((filterMap_find_ids_sublist db _).trans
      (List.Sublist.map _ (List.filter_sublist _)))
    hpids

/-- A list splits into the part kept and the part removed by a filter. -/
lemma length_filter_not_add {α : Type} (p : α → Bool) (l : List α) :
    (l.filter (fun a => !(p a))).length + (l.filter p).length = l.length := by
  induction l with
  | nil => rfl
  | cons a t ih =>
    by_cases h : p a = true
    · rw [List.filter_cons_of_pos h, List.filter_cons_of_neg (by simp [h])]
      simp only [List.length_cons]
      omega
    · rw [List.filter_cons_of_neg h, List.filter_cons_of_pos (by simp [h])]
      simp only [List.length_cons]
      omega

/-- The rows of the store whose id is a descendant id are as many as the
descendant ids. -/
lemma length_filter_mem_ids (db : DB) (f : FileRow) (fp : FilePathRow)
    (hids : (db.files.map (fun g => g.id)).Nodup)
    (hpids : (db.file_paths.map (fun p => p.file_id)).Nodup) :
    (db.files.filter (fun g => (descIdsFor db f fp).contains g.id)).length
      = (descIdsFor db f fp).length := by
  set m := db.files.filter (fun g => (descIdsFor db f fp).contains g.id) with hm
  have hmn : (m.map (fun g => g.id)).Nodup :=
    List.Nodup.sublist (List.Sublist.map _ (List.filter_sublist _)) hids
  have hdn : (descIdsFor db f fp).Nodup := descIds_nodup db f fp hpids
  have hset : (m.map (fun g => g.id)).toFinset = (descIdsFor db f fp).toFinset := by
    apply Finset.ext
    intro x
    simp only [List.mem_toFinset, List.mem_map, hm, List.mem_filter]
    constructor
    · rintro ⟨g, ⟨-, hgc⟩, rfl⟩
      exact (List.contains_iff_exists_mem_beq.mp hgc).elim
        (fun y hy => by rcases hy with ⟨hy1, hy2⟩; simpa [beq_iff_eq.mp hy2] using hy1)
    · intro hx
      obtain ⟨s, hs, hsid⟩ := List.mem_map.mp hx
      refine ⟨s, ⟨mem_files_of_mem_descendantFiles db f fp s hs, ?_⟩, hsid⟩
      rw [hsid]
      simpa using hx
  have h1 : (m.map (fun g => g.id)).length = (descIdsFor db f fp).length := by
    rw [← List.toFinset_card_of_nodup hmn, ← List.toFinset_card_of_nodup hdn, hset]
  simpa using h1

/-- C3: on a successful run, `deleteFile` removes exactly
`|descendantFiles| + 1` rows from the file table, and its blob-gateway
calls hit each block-kind member of the deleted set exactly once and
nothing else. -/
theorem deleteFile_counts (db : DB) (key : String) (f : FileRow) (fp : FilePathRow)
    (hf : findFile db key = some f) (hp : findPath db f.id = some fp)
    (hns : ¬(specialNames.contains f.file_name ∧ fp.path.length ≤ 1))
    (hids : (db.files.map (fun g => g.id)).Nodup)
    (hpids : (db.file_paths.map (fun p => p.file_id)).Nodup)
    (hkeys : (db.files.map (fun g => g.file_key)).Nodup)
    (hsucc : (deleteFile Fault.ok db key).error = none) :
    (deleteFile Fault.ok db key).db.files.length
        + ((descendantFiles db f fp).length + 1) = db.files.length ∧
      (∀ g ∈ f :: descendantFiles db f fp, g.type = FileType.block →
        (deleteFile Fault.ok db key).blobCalls.count g.file_key = 1) ∧
      (∀ k ∈ (deleteFile Fault.ok db key).blobCalls,
        ∃ g ∈ f :: descendantFiles db f fp, g.type = FileType.block ∧ g.file_key = k) := by
  have hinj := List.inj_on_of_nodup_map hkeys
  rw [deleteFile_pastChecks Fault.ok db key f fp hf hp hns] at hsucc ⊢
  rw [if_neg (by decide : ¬(Fault.ok = Fault.failDeleteMany)),
    if_neg (by decide : ¬(Fault.ok = Fault.failFinalDelete))] at hsucc ⊢
  by_cases hany : (dbAfterDeleteMany db f fp).files.any (fun g => g.id == f.id) = true
  · rw [if_pos hany] at hsucc ⊢
    clear hsucc
    -- the row with the file's id that survived the deleteMany
    obtain ⟨r, hr, hrid⟩ := List.any_eq_true.mp hany
    have hrid : r.id = f.id := by simpa using hrid
    -- the file itself is not among the descendants
    have hfd : f.id ∉ descIdsFor db f fp := by
      have h2 := (List.mem_filter.mp hr).2
      rw [← hrid]
      exact contains_eq_false_iff.mp (by simpa using h2)
    have hfd' : f ∉ descendantFiles db f fp := fun hmem =>
      hfd (by simpa [descIdsFor] using List.mem_map_of_mem (fun g => g.id) hmem)
    refine ⟨?_, ?_, ?_⟩
    · -- row count
      have hm2 : (dbAfterDeleteMany db f fp).files.length
          + (descIdsFor db f fp).length = db.files.length := by
        have hsplit := length_filter_not_add
          (fun g => (descIdsFor db f fp).contains g.id) db.files
        rw [length_filter_mem_ids db f fp hids hpids] at hsplit
        exact hsplit
      have hpos : 0 < (dbAfterDeleteMany db f fp).files.length :=
        List.length_pos_of_mem hr
      have hfinal : (dbAfterFinalDelete db f fp).files.length
          = (dbAfterDeleteMany db f fp).files.length - 1 :=
        List.length_eraseP_of_mem hr (by simpa using hrid)
      have hdlen : (descIdsFor db f fp).length = (descendantFiles db f fp).length := by
        simp [descIdsFor]
      show (dbAfterFinalDelete db f fp).files.length
          + ((descendantFiles db f fp).length + 1) = db.files.length
      omega
    · -- each block member hit exactly once
      intro g hg hgb
      show (blobCallsFor db f fp).count g.file_key = 1
      have hdkeys : (((descendantFiles db f fp).filter
          (fun g => g.type == FileType.block)).map (fun g => g.file_key)).Nodup := by
        have hdesc_nodup : (descendantFiles db f fp).Nodup :=
          List.Nodup.of_map _ (descIds_nodup db f fp hpids)
        refine List.Nodup.map_on ?_ (List.Nodup.filter _ hdesc_nodup)
        intro x hx y hy hxy
        exact hinj
          (mem_files_of_mem_descendantFiles db f fp x
            (List.mem_of_mem_filter hx))
          (mem_files_of_mem_descendantFiles db f fp y
            (List.mem_of_mem_filter hy)) hxy
      rw [blobCallsFor, List.count_append]
      rcases List.mem_cons.mp hg with hgf | hgd
      · -- g is the file itself
        have hfb : f.type = FileType.block := hgf ▸ hgb
        rw [if_pos hfb, hgf]
        have hz : (((descendantFiles db f fp).filter
            (fun g => g.type == FileType.block)).map
              (fun g => g.file_key)).count f.file_key = 0 := by
          refine List.count_eq_zero.mpr ?_
          intro hmem
          obtain ⟨s, hs, hskey⟩ := List.mem_map.mp hmem
          have hsd := List.mem_of_mem_filter hs
          have hsf : s = f := hinj
            (mem_files_of_mem_descendantFiles db f fp s hsd)
            (List.mem_of_find?_eq_some hf) hskey
          exact hfd' (hsf ▸ hsd)
        rw [hz, List.count_singleton_self]
      · -- g is a descendant
        have hmem : g.file_key ∈ ((descendantFiles db f fp).filter
            (fun g => g.type == FileType.block)).map (fun g => g.file_key) :=
          List.mem_map_of_mem _ (List.mem_filter.mpr ⟨hgd, by simp [hgb]⟩)
        have hone := List.count_eq_one_of_mem hdkeys hmem
        have hz : (if f.type = FileType.block then [f.file_key] else []).count
            g.file_key = 0 := by
          by_cases hb : f.type = FileType.block
          · rw [if_pos hb]
            refine List.count_eq_zero.mpr ?_
            intro hmem1
            have hkeq : g.file_key = f.file_key := by simpa using hmem1
            have hgf : g = f := hinj
              (mem_files_of_mem_descendantFiles db f fp g hgd)
              (List.mem_of_find?_eq_some hf) hkeq
            exact hfd' (hgf ▸ hgd)
          · rw [if_neg hb]
            rfl
        omega
    · -- nothing but block members of the set is hit
      intro k hk
      show ∃ g ∈ f :: descendantFiles db f fp, g.type = FileType.block ∧ g.file_key = k
      rw [blobCallsFor] at hk
      rcases List.mem_append.mp hk with hk | hk
      · by_cases hb : f.type = FileType.block
        · rw [if_pos hb] at hk
          have hkeq : k = f.file_key := by simpa using hk
          exact ⟨f, List.mem_cons_self f _, hb, hkeq.symm⟩
        · rw [if_neg hb] at hk
          cases hk
      · obtain ⟨s, hs, hskey⟩ := List.mem_map.mp hk
        have hsf := List.mem_filter.mp hs
        exact ⟨s, List.mem_cons_of_mem f hsf.1, by simpa using hsf.2, hskey⟩
  · rw [if_neg hany] at hsucc
    cases hsucc

/-- Witness for C3: deleting `docs` (subtree `{docs, c.txt}`) removes two
rows and calls the blob gateway exactly once, for `c.txt`. -/
theorem deleteFile_counts_witness :
    (deleteFile Fault.ok sampleDB "d").db.files.length
        + ((descendantFiles sampleDB ⟨5, "d", FileType.container, "docs", 1⟩
            ⟨5, [1]⟩).length + 1) = sampleDB.files.length ∧
      (deleteFile Fault.ok sampleDB "d").blobCalls.count "c" = 1 :=
  have h := deleteFile_counts sampleDB "d"
    ⟨5, "d", FileType.container, "docs", 1⟩ ⟨5, [1]⟩
    (by decide) (by decide) (by decide) (by decide) (by decide) (by decide) (by decide)
  ⟨h.1, h.2.1 ⟨6, "c", FileType.block, "c.txt", 1⟩ (by decide) rfl⟩

/-! ## C9: `moveToTrash` relocates the whole subtree under the trash path -/

/-- Distinct keys give pairwise-distinct keys. -/
lemma pairwise_key_ne_of_nodup_map {α β : Type} (key : α → β) (l : List α)
    (h : (l.map key).Nodup) : l.Pairwise (fun a b => key a ≠ key b) := by
  induction l with
  | nil => exact List.Pairwise.nil
  | cons a t ih =>
    simp only [List.map_cons, List.nodup_cons] at h
    refine List.Pairwise.cons ?_ (ih h.2)
    intro b hb heq
    exact h.1 (heq ▸ List.mem_map_of_mem key hb)

/-- Looking a member up by its own key finds that member, when the ambient
table has distinct keys. -/
lemma find?_key_eq_self {α β : Type} [DecidableEq β] (key : α → β) (l m : List α)
    (hsub : ∀ x ∈ l, x ∈ m) (hnodup : (m.map key).Nodup)
    (p : α) (hp : p ∈ l) (hpm : p ∈ m) :
    l.find? (fun a => key a == key p) = some p := by
  induction l with
  | nil => cases hp
  | cons a t ih =>
    by_cases ha : key a = key p
    · rw [List.find?_cons_of_pos _ (by simpa using ha)]
      have : a = p := List.inj_on_of_nodup_map hnodup
        (hsub a (List.mem_cons_self _ _)) hpm ha
      rw [this]
    · rw [List.find?_cons_of_neg _ (by simpa using ha)]
      rcases List.mem_cons.mp hp with rfl | hpt
      · exact absurd rfl ha
      · exact ih (fun x hx => hsub x (List.mem_cons_of_mem _ hx)) hpt

/-- A fold of per-row maps is a map of per-row folds. -/
lemma foldl_map_map {α β : Type} (s : β → α → α) (ts : List β) (l : List α) :
    ts.foldl (fun acc t => acc.map (s t)) l
      = l.map (fun a => ts.foldl (fun x t => s t x) a) := by
  induction ts generalizing l with
  | nil => simp
  | cons t ts ih =>
    rw [List.foldl_cons, ih, List.map_map]
    apply List.map_congr_left
    intro a _
    simp [Function.comp, List.foldl_cons]

/-- A row left alone by every update of the chain. -/
lemma foldl_rowUpdate_id (F : FilePathRow → List Nat) (ts : List FilePathRow)
    (x : FilePathRow) (hx : ∀ u ∈ ts, x.file_id ≠ u.file_id) :
    ts.foldl (fun y t => if y.file_id = t.file_id then { y with path := F t } else y) x
      = x := by
  induction ts with
  | nil => rfl
  | cons t ts ih =>
    rw [List.foldl_cons, if_neg (hx t (List.mem_cons_self _ _))]
    exact ih (fun u hu => hx u (List.mem_cons_of_mem _ hu))

/-- With pairwise-distinct update keys, the chain of single-row updates on
one row applies exactly the first (hence only) matching update. -/
lemma foldl_rowUpdate (F : FilePathRow → List Nat) (ts : List FilePathRow)
    (p : FilePathRow) (hts : ts.Pairwise (fun a b => a.file_id ≠ b.file_id)) :
    ts.foldl (fun x t => if x.file_id = t.file_id then { x with path := F t } else x) p
      = match ts.find? (fun t => t.file_id == p.file_id) with
        | some t => { p with path := F t }
        | none => p := by
  induction ts with
  | nil => rfl
  | cons t ts ih =>
    rcases List.pairwise_cons.mp hts with ⟨hhead, htail⟩
    by_cases hpt : p.file_id = t.file_id
    · rw [List.foldl_cons, if_pos hpt,
        List.find?_cons_of_pos _ (by simpa using hpt.symm)]
      exact foldl_rowUpdate_id F ts { p with path := F t }
        (fun u hu => by simpa [hpt] using (hhead u hu : t.file_id ≠ u.file_id).symm.symm)
    · rw [List.foldl_cons, if_neg hpt,
        List.find?_cons_of_neg _ (by simpa using fun h => hpt h.symm)]
      exact ih htail

/-- The `$transaction(targets.map(update))` of `moveToTrash`: a chain of
single-row path updates with pairwise-distinct keys acts as one pointwise
map over the path table. -/
lemma foldl_applyPathUpdate (F : FilePathRow → List Nat) (ts fps : List FilePathRow)
    (hts : ts.Pairwise (fun a b => a.file_id ≠ b.file_id)) :
    ts.foldl (fun acc t => applyPathUpdate acc t.file_id (F t)) fps
      = fps.map (fun p =>
          match ts.find? (fun t => t.file_id == p.file_id) with
          | some t => { p with path := F t }
          | none => p) :=
  calc ts.foldl (fun acc t => applyPathUpdate acc t.file_id (F t)) fps
      = ts.foldl (fun acc t => acc.map
          (fun x => if x.file_id = t.file_id then { x with path := F t } else x)) fps := rfl
    _ = fps.map (fun p => ts.foldl
          (fun x t => if x.file_id = t.file_id then { x with path := F t } else x) p) :=
        foldl_map_map _ ts fps
    _ = _ := List.map_congr_left (fun p _ => foldl_rowUpdate F ts p hts)

/-- A prefix of a row's path is contained in it elementwise. -/
lemma hasEvery_of_initialSegment (req arr : List Nat) (h : req <+: arr) :
    hasEvery req arr = true := by
  rw [hasEvery, List.all_eq_true]
  intro x hx
  simpa using h.subset hx

/-- The intended path rewrite of `moveToTrash`, stated from the spec's
words: a row of the moved subtree (the target's row, or a row whose path
extends the target's full path) gets the trash path followed by the suffix
of its old path from the target's id on; other rows are unchanged. -/
def trashRelocate (trashPath targetPath : List Nat) (tfid : Nat)
    (p : FilePathRow) : FilePathRow :=
  if targetPath <+: p.path ∨ p.file_id = tfid then
    { p with path := trashPath ++ p.path.drop (targetPath.length - 1) }
  else p

/-- C9: on a successful `moveToTrash`, the path table is rewritten — in one
transaction — exactly by `trashRelocate`: the target's row gets the trash
container's path extended by the trash container's id, and every descendant
row gets that trash path followed by the suffix of its old path beginning
at the target's id. -/
theorem moveToTrash_relocates_subtree (db : DB) (memberId rootFileId : Nat)
    (key : String) (t0 : Nat × FilePathRow) (target : FileRow) (tp : FilePathRow)
    (hq : trashQuery db memberId rootFileId = [t0])
    (hf : findFile db key = some target)
    (hp : findPath db target.id = some tp)
    (hns : ¬(specialNames.contains target.file_name ∧ tp.path.length ≤ 1))
    (hpids : (db.file_paths.map (fun p => p.file_id)).Nodup)
    (hacyc : target.id ∉ tp.path)
    (hwf : ∀ p ∈ db.file_paths,
      hasEvery (tp.path ++ [target.id]) p.path = true →
        (tp.path ++ [target.id]) <+: p.path) :
    moveToTrash db memberId rootFileId key =
        ⟨{ db with file_paths := (db.file_paths.map
            (trashRelocate (t0.2.path ++ [t0.1]) (tp.path ++ [target.id]) target.id)) },
          none⟩ ∧
      (trashRelocate (t0.2.path ++ [t0.1]) (tp.path ++ [target.id]) target.id tp).path
          = t0.2.path ++ [t0.1] ∧
      ∀ p ∈ db.file_paths, (tp.path ++ [target.id]) <+: p.path →
        ∃ rest, p.path = (tp.path ++ [target.id]) ++ rest ∧
          (trashRelocate (t0.2.path ++ [t0.1]) (tp.path ++ [target.id]) target.id p).path
            = (t0.2.path ++ [t0.1]) ++ target.id :: rest := by
  have hinj := List.inj_on_of_nodup_map hpids
  have htpmem : tp ∈ db.file_paths := List.mem_of_find?_eq_some hp
  have htpf : tp.file_id = target.id := by simpa using List.find?_some hp
  have htpno : ¬(hasEvery (tp.path ++ [target.id]) tp.path = true) := by
    intro hcon
    rw [hasEvery, List.all_eq_true] at hcon
    have := hcon target.id (by simp)
    exact hacyc (by simpa using this)
  have hfilter_sub : ∀ x ∈ db.file_paths.filter
      (fun p => hasEvery (tp.path ++ [target.id]) p.path), x ∈ db.file_paths :=
    fun x hx => List.mem_of_mem_filter hx
  have hpair : (db.file_paths.filter (fun p => hasEvery (tp.path ++ [target.id]) p.path)
      ++ [tp]).Pairwise (fun a b => a.file_id ≠ b.file_id) := by
    rw [List.pairwise_append]
    refine ⟨pairwise_key_ne_of_nodup_map (fun p : FilePathRow => p.file_id) _
      (List.Nodup.sublist (List.Sublist.map _ (List.filter_sublist _)) hpids),
      by simp, ?_⟩
    intro a ha b hb
    have hb1 : b = tp := by simpa using hb
    rw [hb1]
    intro heq
    have hatp : a = tp := hinj (hfilter_sub a ha) htpmem heq
    rw [hatp] at ha
    exact htpno (List.mem_filter.mp ha).2
  refine ⟨?_, ?_, ?_⟩
  · simp only [moveToTrash, hq]
    rw [if_neg (by simp)]
    simp only [hf, hp]
    rw [if_neg hns]
    rw [foldl_applyPathUpdate _ _ _ hpair]
    refine congrArg (fun l => (⟨{ db with file_paths := l }, none⟩ : MoveOutcome)) ?_
    apply List.map_congr_left
    intro p hpmem
    by_cases hev : hasEvery (tp.path ++ [target.id]) p.path = true
    · have hpf : p ∈ db.file_paths.filter
          (fun q => hasEvery (tp.path ++ [target.id]) q.path) :=
        List.mem_filter.mpr ⟨hpmem, hev⟩
      have hfind := find?_key_eq_self (fun q : FilePathRow => q.file_id)
        (db.file_paths.filter (fun q => hasEvery (tp.path ++ [target.id]) q.path) ++ [tp])
        db.file_paths
        (by
          intro x hx
          rcases List.mem_append.mp hx with hx | hx
          · exact hfilter_sub x hx
          · have hx1 : x = tp := by simpa using hx
            rw [hx1]
            exact htpmem)
        hpids p (List.mem_append_left _ hpf) hpmem
      rw [hfind, trashRelocate, if_pos (Or.inl (hwf p hpmem hev))]
    · have hnone : (db.file_paths.filter
          (fun q => hasEvery (tp.path ++ [target.id]) q.path)).find?
            (fun t => t.file_id == p.file_id) = none := by
        rw [List.find?_eq_none]
        intro u hu
        simp only [beq_iff_eq]
        intro hup
        have hup1 : u = p := hinj (hfilter_sub u hu) hpmem hup
        rw [hup1] at hu
        exact hev (List.mem_filter.mp hu).2
      by_cases hfid : p.file_id = target.id
      · have hptp : p = tp := hinj hpmem htpmem (hfid.trans htpf.symm)
        have hsingle : List.find? (fun t : FilePathRow => t.file_id == p.file_id) [tp]
            = some tp :=
          List.find?_cons_of_pos _ (by simp [htpf, hfid])
        rw [List.find?_append, hnone, Option.none_or, hsingle]
        show ({ p with path := (t0.2.path ++ [t0.1])
            ++ tp.path.drop ((tp.path ++ [target.id]).length - 1) } : FilePathRow)
          = trashRelocate (t0.2.path ++ [t0.1]) (tp.path ++ [target.id]) target.id p
        rw [trashRelocate, if_pos (Or.inr hfid), hptp]
      · have hsingle : List.find? (fun t : FilePathRow => t.file_id == p.file_id) [tp]
            = none := by
          rw [List.find?_eq_none]
          intro u hu
          have hu1 : u = tp := by simpa using hu
          rw [hu1]
          simp only [beq_iff_eq, htpf]
          exact fun h => hfid h.symm
        rw [List.find?_append, hnone, Option.none_or, hsingle]
        show p = trashRelocate (t0.2.path ++ [t0.1]) (tp.path ++ [target.id]) target.id p
        rw [trashRelocate, if_neg]
        rintro (hpre | h)
        · exact hev (hasEvery_of_initialSegment _ _ hpre)
        · exact hfid h
  · rw [trashRelocate, if_pos (Or.inr htpf)]
    simp
  · intro p hpmem hpre
    obtain ⟨rest, hrest⟩ := hpre
    refine ⟨rest, hrest.symm, ?_⟩
    have hlen : tp.path.length = (tp.path ++ [target.id]).length - 1 := by simp
    have hdrop : p.path.drop ((tp.path ++ [target.id]).length - 1) = target.id :: rest := by
      rw [← hrest, List.append_assoc, List.drop_left' hlen]
      rfl
    rw [trashRelocate, if_pos (Or.inl ⟨rest, hrest⟩)]
    show (t0.2.path ++ [t0.1]) ++ p.path.drop ((tp.path ++ [target.id]).length - 1)
        = (t0.2.path ++ [t0.1]) ++ target.id :: rest
    rw [hdrop]

/-- Witness for C9: moving `docs` (id 5) of `sampleDB` to trash relocates
its descendant `c.txt` (old path `[1, 5]`) under the trash path `[1, 2]`,
keeping the suffix from the target's id. -/
theorem moveToTrash_relocates_subtree_witness :
    ∃ rest, ([1, 5] : List Nat) = [1, 5] ++ rest ∧
      (trashRelocate ([1] ++ [2]) ([1] ++ [5]) 5 ⟨6, [1, 5]⟩).path
        = ([1] ++ [2]) ++ 5 :: rest :=
  (moveToTrash_relocates_subtree sampleDB 1 1 "d" (2, ⟨2, [1]⟩)
    ⟨5, "d", FileType.container, "docs", 1⟩ ⟨5, [1]⟩
    (by decide) (by decide) (by decide) (by decide) (by decide) (by decide)
    (by decide)).2.2 ⟨6, [1, 5]⟩ (by decide) (by decide)

/-! ## C4: the chunk assembler (modelled from the spec) -/

/-- Modelled from the spec: the Chunk Assembler implementation is not under
src/. Per-`uploadKey` assembler state (§4.3, §4.4): the scratch store
(bytes per chunk index), the set of received indices, the list of merge
results produced so far (to count merges), and whether the In-Flight
Upload row still exists (`active`; after promotion it is deleted, so later
chunks fail `NotFoundError` and change nothing). Chunk payloads are byte
lists. -/
structure AsmState where
  scratch : Nat → Option (List Nat)
  receivedSet : List Nat
  merges : List (List Nat)
  active : Bool

/-- The assembler state right after `initiate`: no scratch chunks, nothing
received, no merge yet, upload row present. -/
def initAsm : AsmState := ⟨fun _ => none, [], [], true⟩

/-- Set-insertion into the received-index set (receiving the same index
twice overwrites idempotently: the set does not grow). -/
def setInsert (l : List Nat) (x : Nat) : List Nat :=
  if l.contains x then l else x :: l

/-- Modelled from the spec (§4.3, §4.4): `receiveChunk` for a declared
total of `k` chunks. If the upload row is gone the call fails
(`NotFoundError`) and changes nothing. Otherwise the chunk bytes are
written to the scratch slot of its index, the index is added to the
received set, and when the received set equals `{0 .. k-1}` the merge
runs: the scratch chunks are read in index order, concatenated into one
blob, the scratch artifacts are deleted and the upload is promoted
(the row ceases to exist, making promotion exactly-once). -/
def receiveChunk (k : Nat) (s : AsmState) (idx : Nat) (bytes : List Nat) : AsmState :=
  if !s.active then s
  else
    let scratch1 := fun i => if i = idx then some bytes else s.scratch i
    let r := setInsert s.receivedSet idx
    if (List.range k).all (fun i => r.contains i) then
      { scratch := fun i => if i < k then none else scratch1 i,
        receivedSet := r,
        merges := s.merges ++ [((List.range k).map (fun i => (scratch1 i).getD [])).flatten],
        active := false }
    else
      { s with scratch := scratch1, receivedSet := r }

/-- Feed a delivery sequence of chunk indices (payload of index `i` is
`pay i` — a retried index resends the same bytes) to a fresh assembler. -/
def runAsm (k : Nat) (pay : Nat → List Nat) (ds : List Nat) : AsmState :=
  ds.foldl (fun s i => receiveChunk k s i (pay i)) initAsm

/-- Membership in the received set after an insertion. -/
lemma mem_setInsert_iff {l : List Nat} {x y : Nat} :
    y ∈ setInsert l x ↔ y = x ∨ y ∈ l := by
  rw [setInsert]
  by_cases h : l.contains x = true
  · rw [if_pos h]
    constructor
    · exact Or.inr
    · rintro (rfl | hy)
      · simpa using h
      · exact hy
  · rw [if_neg h]
    simp [List.mem_cons]

/-- Once the upload row is gone, further deliveries change nothing. -/
lemma runAsm_inactive (k : Nat) (pay : Nat → List Nat) (ds : List Nat) (s : AsmState)
    (hs : s.active = false) :
    ds.foldl (fun s i => receiveChunk k s i (pay i)) s = s := by
  induction ds with
  | nil => rfl
  | cons d ds ih =>
    rw [List.foldl_cons, receiveChunk, if_pos (by simp [hs])]
    exact ih

/-- Invariant induction for the assembler: from an active state whose
scratch agrees with the payloads and whose received set is not yet
complete, a delivery sequence covering the missing indices ends inactive
with exactly one merge, equal to the in-order concatenation. -/
lemma runAsm_completes (k : Nat) (pay : Nat → List Nat) :
    ∀ (ds : List Nat) (s : AsmState),
      s.active = true → s.merges = [] →
      (∀ i ∈ s.receivedSet, i < k ∧ s.scratch i = some (pay i)) →
      (List.range k).all (fun i => s.receivedSet.contains i) = false →
      (∀ i ∈ ds, i < k) →
      (∀ i, i < k → i ∈ s.receivedSet ∨ i ∈ ds) →
      (ds.foldl (fun s i => receiveChunk k s i (pay i)) s).active = false ∧
        (ds.foldl (fun s i => receiveChunk k s i (pay i)) s).merges
          = [((List.range k).map pay).flatten] := by
  intro ds
  induction ds with
  | nil =>
    intro s hact hmer hscr hfull hlt hcov
    exfalso
    have hall : (List.range k).all (fun i => s.receivedSet.contains i) = true := by
      rw [List.all_eq_true]
      intro i hi
      have := (hcov i (List.mem_range.mp hi)).resolve_right (by simp)
      simpa using this
    rw [hall] at hfull
    cases hfull
  | cons d ds ih =>
    intro s hact hmer hscr hfull hlt hcov
    rw [List.foldl_cons, receiveChunk, if_neg (by simp [hact])]
    simp only []
    by_cases hc : (List.range k).all
        (fun i => (setInsert s.receivedSet d).contains i) = true
    · rw [if_pos hc]
      constructor
      · rw [runAsm_inactive k pay ds _ rfl]
      · rw [runAsm_inactive k pay ds _ rfl]
        simp only [hmer, List.nil_append]
        refine congrArg (fun l => [List.flatten l]) ?_
        apply List.map_congr_left
        intro i hi
        have hik : i < k := List.mem_range.mp hi
        have hir : i ∈ setInsert s.receivedSet d := by
          have := List.all_eq_true.mp hc i hi
          simpa using this
        by_cases hid : i = d
        · rw [if_pos hid, hid]
          rfl
        · rw [if_neg hid]
          rcases mem_setInsert_iff.mp hir with hid1 | hold
          · exact absurd hid1 hid
          · rw [(hscr i hold).2]
            rfl
    · rw [if_neg hc]
      apply ih
      · exact hact
      · simpa using hmer
      · intro i hi
        rcases mem_setInsert_iff.mp hi with rfl | hold
        · refine ⟨hlt i (List.mem_cons_self _ _), ?_⟩
          simp
        · refine ⟨(hscr i hold).1, ?_⟩
          by_cases hid : i = d
          · simp [hid]
          · simp only [if_neg hid]
            exact (hscr i hold).2
      · simpa using hc
      · exact fun i hi => hlt i (List.mem_cons_of_mem _ hi)
      · intro i hik
        rcases hcov i hik with hold | hds
        · exact Or.inl (mem_setInsert_iff.mpr (Or.inr hold))
        · rcases List.mem_cons.mp hds with rfl | hds1
          · exact Or.inl (mem_setInsert_iff.mpr (Or.inl rfl))
          · exact Or.inr hds1

/-- C4: feeding chunks `0..k-1` in any order, duplicates allowed (a
retried index carries the same payload), to a fresh assembler with
declared total `k > 0` yields exactly one merge, whose blob is the
concatenation of the chunk payloads in index order; afterwards the upload
row is gone, so no further merge can occur. -/
theorem chunkAssembler_exactly_one_merge (k : Nat) (pay : Nat → List Nat)
    (ds : List Nat) (hk : 0 < k) (hlt : ∀ i ∈ ds, i < k)
    (hcov : ∀ i, i < k → i ∈ ds) :
    (runAsm k pay ds).active = false ∧
      (runAsm k pay ds).merges = [((List.range k).map pay).flatten] := by
  apply runAsm_completes k pay ds initAsm rfl rfl (by simp [initAsm]) ?_ hlt
    (fun i hi => Or.inr (hcov i hi))
  rw [List.all_eq_false]
  exact ⟨0, List.mem_range.mpr hk, by simp [initAsm]⟩

/-- Witness for C4: two chunks delivered out of order with a duplicate
(`1, 0, 1`) merge once into the in-order concatenation. -/
theorem chunkAssembler_exactly_one_merge_witness :
    (runAsm 2 (fun i => [i + 10]) [1, 0, 1]).active = false ∧
      (runAsm 2 (fun i => [i + 10]) [1, 0, 1]).merges
        = [((List.range 2).map (fun i => [i + 10])).flatten] :=
  chunkAssembler_exactly_one_merge 2 (fun i => [i + 10]) [1, 0, 1] (by decide)
    (by decide)
    (fun i hi => by
      rcases i with _ | _ | n
      · decide
      · decide
      · omega)

end Ifcloud
